import Mathlib

/-!
# Verification of the lecture-slide-sync detection core

A shallow embedding, in Lean 4, of the slide-transition detection core of the
`lecture-slide-sync` repository, together with proofs of the behavioural
properties claimed by its specification.

Conventions of the embedding:
* Python machine integers are modelled as `ℤ` (or `ℕ` where the source value
  is a count), Python floats as `ℚ` (the source only ever compares, adds and
  multiplies them, so exact rational arithmetic is a faithful model).
* Perceptual hashes (hex strings denoting 64-bit arrays in the source) are
  modelled by their bit sequences, `List Bool`; `imagehash`'s hash
  subtraction is the Hamming distance on those bit sequences.
* Python `set`s are modelled either by `Finset` (tracker state) or by lists
  whose membership relation is what the source observes (OCR word sets).
* Fallible code (`None` returns / raised exceptions) returns `Option` /
  `Except`.
* Image-processing primitives from OpenCV (`Canny`, `findContours`,
  `boundingRect`, `contourArea`) and the Tesseract OCR engine are external
  collaborators: their outputs (contour lists, OCR word/confidence tables)
  are the inputs of the embedded functions, exactly at the boundary where
  the repository's own logic starts.
-/

namespace SlideSync

/-- A perceptual hash, modelled as its sequence of bits (the source carries
64-bit pHashes as hex strings; `imagehash.hex_to_hash` recovers the bit
array, and hash subtraction counts differing bits). -/
abbrev PHash := List Bool

/-- `compute_hamming_distance` from `hashing_utils.py`: the number of bit
positions at which two hashes differ
(`imagehash.hex_to_hash(hash1) - imagehash.hex_to_hash(hash2)`). -/
def compute_hamming_distance (h1 h2 : PHash) : ℕ :=
  (List.zipWith (fun a b => a != b) h1 h2).count true

/-- The list of Hamming distances from a frame hash to every deck hash, in
deck order (`[compute_hamming_distance(current_hash, h) for h in hashes]`). -/
def deck_distances (cur : PHash) (hashes : List PHash) : List ℕ :=
  hashes.map (compute_hamming_distance cur)

/-- `LectureSlides` from `lecture_slides.py`, reduced to the data the
tracker reads: the precomputed perceptual hash of each PDF page, in page
order. -/
structure LectureSlides where
  hashes : List PHash

/-- The mutable state of `SlideTracker` from `slide_tracker.py`:
`lecture_slides`, `current_slide_index` (initialised to `-1`),
`seen_slide_indices` (initially empty) and `_max_hamming_distance`
(default `8`). -/
structure SlideTracker where
  lecture_slides : LectureSlides
  current_slide_index : ℤ
  seen_slide_indices : Finset ℕ
  max_hamming_distance : ℕ

/-- A fresh `SlideTracker` as built by the dataclass constructor:
`current_slide_index = -1`, `seen_slide_indices = set()`,
`_max_hamming_distance = 8`. -/
def SlideTracker.init (slides : LectureSlides) : SlideTracker :=
  { lecture_slides := slides
    current_slide_index := -1
    seen_slide_indices := ∅
    max_hamming_distance := 8 }

/-- One step of the scanning loop of
`SlideTracker.find_most_similar_slide_index`: `none` as the running minimum
models the initial `float("inf")`, and the running best index starts at
`-1`.  The update condition is the source's strict
`hamming_distance < min_hamming_distance`. -/
def dist_lt (d : ℕ) : Option ℕ → Bool
  | none => true
  | some m => d < m

/-- The `for i, slide_hash in enumerate(...)` loop of
`SlideTracker.find_most_similar_slide_index` (`slide_tracker.py`):
state is `(most_similar_slide_index, min_hamming_distance)`. -/
def find_loop (cur : PHash) : List PHash → ℕ → ℤ → Option ℕ → ℤ × Option ℕ
  | [], _, best, mind => (best, mind)
  | h :: t, i, best, mind =>
    if dist_lt (compute_hamming_distance cur h) mind then
      find_loop cur t (i + 1) (i : ℤ) (some (compute_hamming_distance cur h))
    else
      find_loop cur t (i + 1) best mind

/-- `SlideTracker.find_most_similar_slide_index` from `slide_tracker.py`:
scan all slide hashes for the minimum Hamming distance to the frame's RoI
hash; return `(index, distance)` if that minimum is `≤ _max_hamming_distance`,
else `None`.  (With an empty deck the minimum stays `inf` and the comparison
fails, so the result is `None`.) -/
def find_most_similar_slide_index (hashes : List PHash) (cur : PHash)
    (maxDist : ℕ) : Option (ℤ × ℕ) :=
  match find_loop cur hashes 0 (-1) none with
  | (_, none) => none
  | (best, some d) => if d ≤ maxDist then some (best, d) else none

/-- `SlideTracker.mark_slide_as_seen` from `slide_tracker.py`: insert the
index into `seen_slide_indices` and set `current_slide_index` to it. -/
def mark_slide_as_seen (st : SlideTracker) (index : ℕ) : SlideTracker :=
  { st with
    seen_slide_indices := insert index st.seen_slide_indices
    current_slide_index := (index : ℤ) }

/-- `SlideTracker.has_seen_slide` from `slide_tracker.py`:
`index in self.seen_slide_indices`. -/
def has_seen_slide (st : SlideTracker) (index : ℕ) : Bool :=
  index ∈ st.seen_slide_indices

/-- Specification-side helper: the first arg-min of `f` over a list,
returning `(index, minimum value)`, ties broken towards the earlier index.
Used only to characterise `find_loop`. -/
def arg_min_first (f : PHash → ℕ) : List PHash → Option (ℕ × ℕ)
  | [] => none
  | h :: t =>
    match arg_min_first f t with
    | none => some (0, f h)
    | some (j, m) => if f h ≤ m then some (0, f h) else some (j + 1, m)

/-!
## OCR keyword detection (`ocr_keyword_detector.py`)

Tesseract's `image_to_data` output (the parallel arrays `text` and `conf`)
is modelled as a list of `(text, conf)` entries; the detector's own logic
starts after that call.  Words are `List Char` so that the character-level
regex semantics of `re.search(rf"\b{keyword}\b", text, re.IGNORECASE)` can
be modelled positionally.
-/

/-- One word of Tesseract OCR output: its text and its confidence score. -/
structure OcrEntry where
  text : List Char
  conf : ℤ

/-- A regex word character (`\w` for the ASCII keywords the detector is
used with): alphanumeric or underscore. -/
def is_word_char (c : Char) : Bool := c.isAlphanum || c == '_'

/-- Case-insensitive equality of character sequences, modelling
`re.IGNORECASE` via lower-casing both sides. -/
def lower_eq (a b : List Char) : Bool :=
  a.map Char.toLower == b.map Char.toLower

/-- Does `kw` occur in `w` starting at position `i`, delimited by word
boundaries on both sides?  This is `re.search(rf"\b{kw}\b", w, IGNORECASE)`
anchored at `i`, for keywords made of word characters: the character before
position `i` (if any) and the character after the occurrence (if any) must
not be word characters. -/
def match_at (kw w : List Char) (i : ℕ) : Bool :=
  decide (i + kw.length ≤ w.length) &&
  lower_eq ((w.drop i).take kw.length) kw &&
  (decide (i = 0) || !(is_word_char (w.getD (i - 1) ' '))) &&
  (decide (i + kw.length = w.length) || !(is_word_char (w.getD (i + kw.length) ' ')))

/-- `re.search(rf"\b{keyword}\b", text, re.IGNORECASE)` for a keyword made
of word characters: the keyword occurs somewhere in `text` as a standalone
word. -/
def standalone_word_match (kw w : List Char) : Bool :=
  (List.range (w.length + 1)).any (match_at kw w)

/-- Declarative form of a standalone case-insensitive occurrence: `w`
splits as `pre ++ mid ++ post` where `mid` equals the keyword up to case
and the adjacent characters (last of `pre`, first of `post`), when they
exist, are not word characters. -/
def StandaloneOcc (kw w : List Char) : Prop :=
  ∃ pre mid post, w = pre ++ mid ++ post ∧
    mid.map Char.toLower = kw.map Char.toLower ∧
    (∀ c, pre.getLast? = some c → is_word_char c = false) ∧
    (∀ c, post.head? = some c → is_word_char c = false)

/-- Python's `str.strip()`: remove leading and trailing whitespace. -/
def py_strip (s : List Char) : List Char :=
  ((s.dropWhile Char.isWhitespace).reverse.dropWhile Char.isWhitespace).reverse

/-- `_filter_words_by_confidence` from `ocr_keyword_detector.py`: the
stripped texts of the OCR entries whose confidence is at least the
threshold.  (The source collects them into a Python `set`; a list with the
same members is an equivalent model, since the callers only test
membership / existence.) -/
def filter_words_by_confidence (ocr : List OcrEntry) (t : ℤ) : List (List Char) :=
  (ocr.filter (fun e => t ≤ e.conf)).map (fun e => py_strip e.text)

/-- `_get_matching_keywords` from `ocr_keyword_detector.py`: the keywords
for which some word matches `rf"\b{keyword}\b"` case-insensitively. -/
def get_matching_keywords (words : List (List Char))
    (keywords : List (List Char)) : List (List Char) :=
  keywords.filter (fun kw => words.any (fun w => standalone_word_match kw w))

/-- `are_all_keywords_present` from `ocr_keyword_detector.py` (after the
`_perform_ocr` call, whose output is the `ocr` argument): filter words by
confidence, drop empty strings, collect the matched keywords, and test
`keywords.issubset(found_keywords)`. -/
def are_all_keywords_present (ocr : List OcrEntry)
    (keywords : List (List Char)) (t : ℤ) : Bool :=
  let valid_words := filter_words_by_confidence ocr t
  let valid_words_non_empty := (valid_words.map py_strip).filter (fun w => !w.isEmpty)
  let found := get_matching_keywords valid_words_non_empty keywords
  keywords.all (fun kw => found.contains kw)

/-!
## First-slide search (`slide_detection.py` and the app-layer detector)
-/

/-- A video frame as consumed by the keyword oracle: the source runs
Tesseract on the full frame; the frame is modelled by that OCR output. -/
structure Frame where
  ocr_data : List OcrEntry

/-- Python `int()` applied to a float: truncation toward zero. -/
def py_int (q : ℚ) : ℤ := if 0 ≤ q then ⌊q⌋ else ⌈q⌉

/-- The hard-coded first-slide keyword set of `find_first_slide`
(`slide_detection.py`). -/
def keywords_to_be_matched : List (List Char) :=
  ["UNIVERSITY".data, "FH".data, "AACHEN".data, "OF".data,
   "APPLIED".data, "SCIENCES".data]

/-- Modelled from the spec: `FirstSlideNotFoundError`, the fatal error of
the app-layer first-slide search (`app/core/slide_detection.py`, absent
from the sources; only its callers and tests are present). -/
inductive FirstSlideNotFoundError where
  | firstSlideNotFound
deriving DecidableEq

/-- The scanning loop shared by `find_first_slide` and the app-layer
detector: read frames in order (`cap.read()` succeeds while frames
remain), stop after the attempt budget, return the first frame whose OCR
output satisfies the keyword oracle together with its frame count. -/
def first_slide_scan (keywords : List (List Char)) (conf_threshold : ℤ) :
    List Frame → ℕ → ℕ → Option (Frame × ℕ)
  | _, _, 0 => none
  | [], _, _ + 1 => none
  | f :: rest, idx, n + 1 =>
    if are_all_keywords_present f.ocr_data keywords conf_threshold then
      some (f, idx)
    else
      first_slide_scan keywords conf_threshold rest (idx + 1) n

/-- `find_first_slide` from `slide_detection.py`: scan at most
`int(max_seconds * fps)` frames from frame 0 for the hard-coded keyword
set (OCR confidence threshold left at its default `80`); return the first
hit with its frame count, or `None`. -/
def find_first_slide (video : List Frame) (max_seconds : ℕ) (fps : ℚ) :
    Option (Frame × ℕ) :=
  first_slide_scan keywords_to_be_matched 80 video 0
    (py_int ((max_seconds : ℚ) * fps)).toNat

/-- Modelled from the spec: the app-layer first-slide search
(`detect_first_slide` of `app/core/slide_detection.py`, absent from the
sources).  Per spec §4.3/§4.6 it scans every frame in increasing order
with a hard cap of `max_seconds_to_scan × fps` attempts over a
configurable keyword set, and fails with `FirstSlideNotFoundError`
instead of returning an empty result when no frame within the cap
qualifies. -/
def detect_first_slide (video : List Frame) (keywords : List (List Char))
    (max_seconds : ℕ) (fps : ℚ) (conf_threshold : ℤ) :
    Except FirstSlideNotFoundError (Frame × ℕ) :=
  match first_slide_scan keywords conf_threshold video 0
      (py_int ((max_seconds : ℚ) * fps)).toNat with
  | some hit => .ok hit
  | none => .error .firstSlideNotFound

/-!
## Region-of-Interest extraction (`roi_utils.py` / `video_frame.py`)

The OpenCV pipeline (`add_black_border` with padding 5, grayscale,
`Canny`, `findContours`) produces a tuple of contours of the padded
image; each contour enters the repository logic only through
`cv2.contourArea` and `cv2.boundingRect`, so a contour is modelled by
those values.  Coordinates are in padded-image space: `boundingRect` of a
contour of the padded image satisfies `0 ≤ x`, `0 ≤ y`,
`x + w ≤ image_width + 10`, `y + h ≤ image_height + 10`.
-/

/-- A contour as observed by the RoI code: its `cv2.contourArea` and its
`cv2.boundingRect` (top-left corner, width, height). -/
structure Contour where
  area : ℚ
  x : ℤ
  y : ℤ
  w : ℤ
  h : ℤ
deriving DecidableEq

/-- `boundingRect` output of a contour found in the padded image lies
inside the padded image (padding 5 on each side). -/
abbrev contour_in_padded (c : Contour) (img_width img_height : ℤ) : Prop :=
  0 ≤ c.x ∧ 0 ≤ c.y ∧ c.x + c.w ≤ img_width + 10 ∧ c.y + c.h ≤ img_height + 10

/-- `max(contours, key=cv2.contourArea)`: Python's `max` keeps the first
element among equal maxima (it replaces the running best only on a
strictly greater key). -/
def largest_contour : List Contour → Option Contour
  | [] => none
  | c :: t => some (t.foldl (fun best c2 => if c2.area > best.area then c2 else best) c)

/-- Modelled from the spec: `RoiNotFoundError`, the fatal error of the
app-layer RoI locator (the app-layer frame model is absent from the
sources; `src/video_frame.py` raises `ValueError` with the two messages
modelled by the two constructors, and `src/roi_utils.py` returns `None`
in the same two situations). -/
inductive RoiNotFoundError where
  | noContours
  | roiTooSmall
deriving DecidableEq

/-- `VideoFrame.compute_roi_coordinates` from `video_frame.py`, starting
at the contour list produced by `cv2.findContours` on the padded image:
fail if there are no contours; take the largest contour by
`cv2.contourArea`; fail if its bounding box is below the hard-coded
validity gates (width 500, height 500, area 5000); otherwise subtract the
padding (5) and clip to the original image bounds. -/
def compute_roi_coordinates (contours : List Contour)
    (img_width img_height : ℤ) : Except RoiNotFoundError (ℤ × ℤ × ℤ × ℤ) :=
  match largest_contour contours with
  | none => .error .noContours
  | some c =>
    if c.w < 500 ∨ c.h < 500 ∨ c.w * c.h < 5000 then
      .error .roiTooSmall
    else
      .ok (max 0 (c.x - 5), max 0 (c.y - 5),
        min img_width (c.x + c.w - 5), min img_height (c.y + c.h - 5))

/-- `extract_slide_roi_coordinates` from `roi_utils.py`: the same
pipeline with configurable validity gates (defaults
`min_width = 500`, `min_height = 500`, `min_area = 5000`), returning
`None` instead of raising. -/
def extract_slide_roi_coordinates (contours : List Contour)
    (img_width img_height : ℤ) (min_width min_height min_area : ℤ) :
    Option (ℤ × ℤ × ℤ × ℤ) :=
  match largest_contour contours with
  | none => none
  | some c =>
    if min_width ≤ c.w ∧ min_height ≤ c.h ∧ min_area ≤ c.w * c.h then
      some (max 0 (c.x - 5), max 0 (c.y - 5),
        min img_width (c.x + c.w - 5), min img_height (c.y + c.h - 5))
    else none

/-!
## Transition detection run (spec §4.5/§4.6) and the frame source
-/

/-- A sampled frame as consumed by the tracker decision: its frame
number, the perceptual hash of its (frozen) RoI crop, and the outcome of
the text-similarity corroboration (spec §4.7) against each candidate
page, abstracted as a predicate on page indices. -/
structure SampledFrame where
  frame_number : ℕ
  roi_hash : PHash
  corroborated : ℕ → Bool

/-- Modelled from the spec: one tracker decision of the transition
detector (`detect_slide_transitions` of `app/core/slide_detection.py`,
absent from the sources), per spec §4.5: query the nearest-hash lookup;
on no match, or a match already in `seen_slide_indices`, change nothing;
otherwise confirm when the distance is very small (`< 2`) or the
text-similarity corroborator accepts, by marking the slide as seen and
appending `(page index, frame number)` to the transition list. -/
def tracker_decision (st : SlideTracker) (transitions : List (ℕ × ℕ))
    (fr : SampledFrame) : SlideTracker × List (ℕ × ℕ) :=
  match find_most_similar_slide_index st.lecture_slides.hashes fr.roi_hash
      st.max_hamming_distance with
  | none => (st, transitions)
  | some (i, d) =>
    if has_seen_slide st i.toNat then
      (st, transitions)
    else if d < 2 ∨ fr.corroborated i.toNat = true then
      (mark_slide_as_seen st i.toNat,
        transitions ++ [(i.toNat, fr.frame_number)])
    else
      (st, transitions)

/-- Modelled from the spec: the transition-detection run (spec §4.6,
step 5): fold the tracker decision over the sampled frames, starting
from the given tracker state and an empty transition list, and return
the accumulated Slide Transition Map in confirmation order. -/
def detect_slide_transitions (st : SlideTracker)
    (frames : List SampledFrame) : List (ℕ × ℕ) :=
  (frames.foldl (fun acc fr => tracker_decision acc.1 acc.2 fr) (st, [])).2

/-- One frame as delivered by PyAV's decoder: only its presentation
timestamp (`pts`, possibly absent) is observed by the generator logic. -/
structure DecodedFrame where
  pts : Option ℤ

/-- A frame yielded by `generate_video_frame`, reduced to the metadata
the loop computes: `frame_number` and `frame_timestamp_seconds`. -/
structure YieldedFrame where
  frame_number : ℤ
  frame_timestamp_seconds : ℚ

/-- Python's built-in `round`: round half to even. -/
def py_round (q : ℚ) : ℤ :=
  if q - ⌊q⌋ < 1 / 2 then ⌊q⌋
  else if 1 / 2 < q - ⌊q⌋ then ⌊q⌋ + 1
  else if Even ⌊q⌋ then ⌊q⌋ else ⌊q⌋ + 1

/-- The decode loop of `generate_video_frame` (`video_utils.py` and
`app/core/video_utils.py`): skip frames without `pts`; skip frames whose
counter is not a multiple of `frames_step` (incrementing the counter);
compute `current_frame_second = pts * time_base` and
`current_frame_number = round(current_frame_second * average_rate)`;
skip frames below `start_frame_number` (without incrementing the
counter); otherwise increment the counter and yield. -/
def generate_video_frame_loop (time_base average_rate : ℚ)
    (frames_step start_frame_number : ℕ) :
    List DecodedFrame → ℕ → List YieldedFrame
  | [], _ => []
  | fr :: rest, frame_counter =>
    match fr.pts with
    | none =>
      generate_video_frame_loop time_base average_rate frames_step
        start_frame_number rest frame_counter
    | some pts =>
      if frame_counter % frames_step ≠ 0 then
        generate_video_frame_loop time_base average_rate frames_step
          start_frame_number rest (frame_counter + 1)
      else if py_round ((pts : ℚ) * time_base * average_rate) <
          (start_frame_number : ℤ) then
        generate_video_frame_loop time_base average_rate frames_step
          start_frame_number rest frame_counter
      else
        ⟨py_round ((pts : ℚ) * time_base * average_rate),
          (pts : ℚ) * time_base⟩ ::
          generate_video_frame_loop time_base average_rate frames_step
            start_frame_number rest (frame_counter + 1)

/-- `generate_video_frame` from `video_utils.py` /
`app/core/video_utils.py`, starting at the decoded-frame sequence the
seek produces: run the decode loop with `frame_counter = 0`. -/
def generate_video_frame (frames : List DecodedFrame)
    (time_base average_rate : ℚ) (frames_step start_frame_number : ℕ) :
    List YieldedFrame :=
  generate_video_frame_loop time_base average_rate frames_step
    start_frame_number frames 0

end SlideSync

namespace SlideSync

lemma arg_min_first_eq_none (f : PHash → ℕ) (l : List PHash) :
    arg_min_first f l = none ↔ l = [] := by
  cases l with
  | nil => simp [arg_min_first]
  | cons h t =>
    simp only [arg_min_first]
    cases arg_min_first f t with
    | none => simp
    | some p =>
      obtain ⟨j, m⟩ := p
      by_cases hle : f h ≤ m <;> simp [hle]

lemma arg_min_first_spec (f : PHash → ℕ) (l : List PHash) (j m : ℕ)
    (h : arg_min_first f l = some (j, m)) :
    j < l.length ∧ (l.map f).getD j 0 = m ∧
      (∀ k, k < l.length → m ≤ (l.map f).getD k 0) ∧
      (∀ k, k < j → m < (l.map f).getD k 0) := by
  induction l generalizing j m with
  | nil => simp [arg_min_first] at h
  | cons a t ih =>
    simp only [arg_min_first] at h
    cases ht : arg_min_first f t with
    | none =>
      rw [ht] at h
      simp only at h
      simp only [Option.some.injEq, Prod.mk.injEq] at h
      obtain ⟨hj, hm⟩ := h
      subst hj; subst hm
      have ht' : t = [] := (arg_min_first_eq_none f t).mp ht
      subst ht'
      refine ⟨by simp, by simp, ?_, ?_⟩
      · intro k hk
        simp only [List.length_cons, List.length_nil] at hk
        interval_cases k
        simp
      · intro k hk
        exact absurd hk (by omega)
    | some p =>
      obtain ⟨j', m'⟩ := p
      rw [ht] at h
      simp only at h
      obtain ⟨hlen, hget, hmin, hfirst⟩ := ih j' m' ht
      by_cases hle : f a ≤ m'
      · rw [if_pos hle] at h
        simp only [Option.some.injEq, Prod.mk.injEq] at h
        obtain ⟨hj, hm⟩ := h
        subst hj; subst hm
        refine ⟨by simp, by simp, ?_, ?_⟩
        · intro k hk
          cases k with
          | zero => simp
          | succ k' =>
            simp only [List.map_cons, List.getD_cons_succ]
            have := hmin k' (by simp at hk; omega)
            omega
        · intro k hk
          exact absurd hk (by omega)
      · rw [if_neg hle] at h
        simp only [Option.some.injEq, Prod.mk.injEq] at h
        obtain ⟨hj, hm⟩ := h
        subst hj; subst hm
        refine ⟨by simp; omega, by simpa using hget, ?_, ?_⟩
        · intro k hk
          cases k with
          | zero => simp; omega
          | succ k' =>
            simp only [List.map_cons, List.getD_cons_succ]
            exact hmin k' (by simp at hk; omega)
        · intro k hk
          cases k with
          | zero => simp; omega
          | succ k' =>
            simp only [List.map_cons, List.getD_cons_succ]
            exact hfirst k' (by omega)

lemma dist_lt_some (d m : ℕ) : dist_lt d (some m) = decide (d < m) := rfl

lemma find_loop_some_of_none (cur : PHash) (l : List PHash)
    (h : arg_min_first (compute_hamming_distance cur) l = none) :
    ∀ (i : ℕ) (b : ℤ) (m : ℕ), find_loop cur l i b (some m) = (b, some m) := by
  have hl : l = [] := (arg_min_first_eq_none _ l).mp h
  subst hl
  intro i b m
  simp [find_loop]

lemma find_loop_some_of_some (cur : PHash) (l : List PHash) (j mv : ℕ)
    (h : arg_min_first (compute_hamming_distance cur) l = some (j, mv)) :
    ∀ (i : ℕ) (b : ℤ) (m : ℕ),
      find_loop cur l i b (some m) =
        if mv < m then (((i + j : ℕ) : ℤ), some mv) else (b, some m) := by
  induction l generalizing j mv with
  | nil => simp [arg_min_first] at h
  | cons a t ih =>
    intro i b m
    simp only [arg_min_first] at h
    set d := compute_hamming_distance cur a with hd
    simp only [find_loop, dist_lt_some, ← hd]
    cases ht : arg_min_first (compute_hamming_distance cur) t with
    | none =>
      rw [ht] at h
      simp only at h
      simp only [Option.some.injEq, Prod.mk.injEq] at h
      obtain ⟨hj, hmv⟩ := h
      subst hj; subst hmv
      by_cases hdm : d < m
      · rw [if_pos (by simpa using hdm), if_pos hdm,
          find_loop_some_of_none cur t ht]
        simp
      · rw [if_neg (by simpa using hdm), if_neg hdm,
          find_loop_some_of_none cur t ht]
    | some p =>
      obtain ⟨j2, mv2⟩ := p
      rw [ht] at h
      simp only at h
      by_cases h1 : d ≤ mv2
      · rw [if_pos h1] at h
        simp only [Option.some.injEq, Prod.mk.injEq] at h
        obtain ⟨hj, hmv⟩ := h
        subst hj; subst hmv
        by_cases hdm : d < m
        · rw [if_pos (by simpa using hdm), if_pos hdm,
            ih j2 mv2 ht (i + 1) (i : ℤ) d, if_neg (by omega)]
          simp
        · rw [if_neg (by simpa using hdm), if_neg hdm,
            ih j2 mv2 ht (i + 1) b m, if_neg (by omega)]
      · rw [if_neg h1] at h
        simp only [Option.some.injEq, Prod.mk.injEq] at h
        obtain ⟨hj, hmv⟩ := h
        subst hj; subst hmv
        have harith : i + 1 + j2 = i + (j2 + 1) := by omega
        by_cases hdm : d < m
        · rw [if_pos (by simpa using hdm), if_pos (show mv2 < m by omega),
            ih j2 mv2 ht (i + 1) (i : ℤ) d, if_pos (by omega), harith]
        · rw [if_neg (by simpa using hdm),
            ih j2 mv2 ht (i + 1) b m, harith]

lemma find_loop_none_of_none (cur : PHash) (l : List PHash)
    (h : arg_min_first (compute_hamming_distance cur) l = none) :
    ∀ (i : ℕ) (b : ℤ), find_loop cur l i b none = (b, none) := by
  have hl : l = [] := (arg_min_first_eq_none _ l).mp h
  subst hl
  intro i b
  simp [find_loop]

lemma find_loop_none_of_some (cur : PHash) (l : List PHash) (j mv : ℕ)
    (h : arg_min_first (compute_hamming_distance cur) l = some (j, mv)) :
    ∀ (i : ℕ) (b : ℤ),
      find_loop cur l i b none = (((i + j : ℕ) : ℤ), some mv) := by
  intro i b
  cases l with
  | nil => simp [arg_min_first] at h
  | cons a t =>
    simp only [arg_min_first] at h
    set d := compute_hamming_distance cur a with hd
    show find_loop cur t (i + 1) (i : ℤ) (some d) = _
    cases ht : arg_min_first (compute_hamming_distance cur) t with
    | none =>
      rw [ht] at h
      simp only at h
      simp only [Option.some.injEq, Prod.mk.injEq] at h
      obtain ⟨hj, hmv⟩ := h
      subst hj; subst hmv
      rw [find_loop_some_of_none cur t ht]
      simp
    | some p =>
      obtain ⟨j2, mv2⟩ := p
      rw [ht] at h
      simp only at h
      by_cases h1 : d ≤ mv2
      · rw [if_pos h1] at h
        simp only [Option.some.injEq, Prod.mk.injEq] at h
        obtain ⟨hj, hmv⟩ := h
        subst hj; subst hmv
        rw [find_loop_some_of_some cur t j2 mv2 ht (i + 1) (i : ℤ) d,
          if_neg (by omega)]
        simp
      · rw [if_neg h1] at h
        simp only [Option.some.injEq, Prod.mk.injEq] at h
        obtain ⟨hj, hmv⟩ := h
        subst hj; subst hmv
        rw [find_loop_some_of_some cur t j2 mv2 ht (i + 1) (i : ℤ) d,
          if_pos (by omega)]
        have harith : i + 1 + j2 = i + (j2 + 1) := by omega
        rw [harith]

lemma find_most_similar_eq_of_some (hashes : List PHash) (cur : PHash)
    (j0 m0 : ℕ)
    (h : arg_min_first (compute_hamming_distance cur) hashes = some (j0, m0))
    (t : ℕ) :
    find_most_similar_slide_index hashes cur t =
      if m0 ≤ t then some ((j0 : ℤ), m0) else none := by
  unfold find_most_similar_slide_index
  rw [find_loop_none_of_some cur hashes j0 m0 h 0 (-1)]
  simp

lemma find_most_similar_eq_of_none (hashes : List PHash) (cur : PHash)
    (h : arg_min_first (compute_hamming_distance cur) hashes = none)
    (t : ℕ) :
    find_most_similar_slide_index hashes cur t = none := by
  unfold find_most_similar_slide_index
  rw [find_loop_none_of_none cur hashes h 0 (-1)]

/-- Claim C1: for every frame hash and non-empty deck,
`SlideTracker.find_most_similar_slide_index` returns exactly the pair
`(index, distance)` where `index` is the first deck index attaining the
minimum Hamming distance to the frame hash among all deck hashes (ties
broken towards the lowest index) and `distance` that minimum — and it does
so precisely when the minimum is at most the `_max_hamming_distance`
threshold; otherwise it returns `None`. -/
theorem find_most_similar_slide_index_spec (hashes : List PHash)
    (cur : PHash) (t : ℕ) (hne : hashes ≠ []) :
    (∀ i d, find_most_similar_slide_index hashes cur t = some (i, d) ↔
      (d ≤ t ∧ ∃ j : ℕ, i = (j : ℤ) ∧ j < hashes.length ∧
        (deck_distances cur hashes).getD j 0 = d ∧
        (∀ k, k < hashes.length → d ≤ (deck_distances cur hashes).getD k 0) ∧
        (∀ k, k < j → d < (deck_distances cur hashes).getD k 0))) ∧
    (find_most_similar_slide_index hashes cur t = none ↔
      ∀ k, k < hashes.length → t < (deck_distances cur hashes).getD k 0) := by
  cases ham : arg_min_first (compute_hamming_distance cur) hashes with
  | none => exact absurd ((arg_min_first_eq_none _ hashes).mp ham) hne
  | some p =>
    obtain ⟨j0, m0⟩ := p
    obtain ⟨hlen0, hget0, hmin0, hfirst0⟩ :=
      arg_min_first_spec (compute_hamming_distance cur) hashes j0 m0 ham
    have hdd : hashes.map (compute_hamming_distance cur) =
        deck_distances cur hashes := rfl
    simp only [hdd] at hget0 hmin0 hfirst0
    have heq := find_most_similar_eq_of_some hashes cur j0 m0 ham t
    constructor
    · intro i d
      constructor
      · intro hsome
        rw [heq] at hsome
        by_cases hm0 : m0 ≤ t
        · rw [if_pos hm0] at hsome
          simp only [Option.some.injEq, Prod.mk.injEq] at hsome
          obtain ⟨hi, hd⟩ := hsome
          subst hd
          refine ⟨hm0, j0, hi.symm, hlen0, hget0, hmin0, hfirst0⟩
        · rw [if_neg hm0] at hsome
          exact absurd hsome (by simp)
      · rintro ⟨hdt, j, hi, hjlen, hget, hmin, hfirst⟩
        have hdm0 : d = m0 := by
          have h1 : m0 ≤ (deck_distances cur hashes).getD j 0 := hmin0 j hjlen
          have h2 : d ≤ (deck_distances cur hashes).getD j0 0 := hmin j0 hlen0
          omega
        have hjj0 : j = j0 := by
          by_contra hne2
          rcases Nat.lt_or_ge j j0 with hlt | hge
          · have := hfirst0 j hlt
            omega
          · have hlt : j0 < j := by omega
            have := hfirst j0 hlt
            omega
        subst hjj0
        subst hdm0
        rw [heq, if_pos hdt, hi]
    · rw [heq]
      constructor
      · intro hnone
        by_cases hm0 : m0 ≤ t
        · rw [if_pos hm0] at hnone
          exact absurd hnone (by simp)
        · intro k hk
          have := hmin0 k hk
          omega
      · intro hall
        have := hall j0 hlen0
        rw [if_neg (by omega)]

/-- Claim C1 witness: the characterisation applied to the concrete deck
`[[true, false], [false, false]]` and frame hash `[false, false]` at the
default threshold `8`. -/
theorem find_most_similar_slide_index_spec_witness :
    ([[true, false], [false, false]] : List PHash) ≠ [] ∧
    ((∀ i d, find_most_similar_slide_index
        [[true, false], [false, false]] [false, false] 8 = some (i, d) ↔
      (d ≤ 8 ∧ ∃ j : ℕ, i = (j : ℤ) ∧
        j < ([[true, false], [false, false]] : List PHash).length ∧
        (deck_distances [false, false] [[true, false], [false, false]]).getD j 0 = d ∧
        (∀ k, k < ([[true, false], [false, false]] : List PHash).length →
          d ≤ (deck_distances [false, false] [[true, false], [false, false]]).getD k 0) ∧
        (∀ k, k < j →
          d < (deck_distances [false, false] [[true, false], [false, false]]).getD k 0))) ∧
    (find_most_similar_slide_index
        [[true, false], [false, false]] [false, false] 8 = none ↔
      ∀ k, k < ([[true, false], [false, false]] : List PHash).length →
        8 < (deck_distances [false, false] [[true, false], [false, false]]).getD k 0)) :=
  ⟨by decide,
   find_most_similar_slide_index_spec [[true, false], [false, false]]
     [false, false] 8 (by decide)⟩

/-- Claim C6: nearest-hash lookup is monotone in the distance threshold —
if it matches at threshold `t1 ≤ t2` it matches at `t2` with the same index
and distance — and for every threshold it returns `None` exactly when every
deck hash lies strictly beyond the threshold (i.e. the true minimum
distance exceeds it). -/
theorem find_most_similar_slide_index_threshold_mono (hashes : List PHash)
    (cur : PHash) (t1 t2 : ℕ) (h12 : t1 ≤ t2) :
    (∀ p, find_most_similar_slide_index hashes cur t1 = some p →
      find_most_similar_slide_index hashes cur t2 = some p) ∧
    (∀ t, find_most_similar_slide_index hashes cur t = none ↔
      ∀ k, k < hashes.length → t < (deck_distances cur hashes).getD k 0) := by
  cases ham : arg_min_first (compute_hamming_distance cur) hashes with
  | none =>
    have hnil : hashes = [] := (arg_min_first_eq_none _ hashes).mp ham
    subst hnil
    constructor
    · intro p hp
      rw [find_most_similar_eq_of_none [] cur ham t1] at hp
      exact absurd hp (by simp)
    · intro t
      rw [find_most_similar_eq_of_none [] cur ham t]
      simp
  | some p =>
    obtain ⟨j0, m0⟩ := p
    obtain ⟨hlen0, hget0, hmin0, hfirst0⟩ :=
      arg_min_first_spec (compute_hamming_distance cur) hashes j0 m0 ham
    have hdd : hashes.map (compute_hamming_distance cur) =
        deck_distances cur hashes := rfl
    simp only [hdd] at hget0 hmin0 hfirst0
    constructor
    · intro q hq
      rw [find_most_similar_eq_of_some hashes cur j0 m0 ham t1] at hq
      by_cases hm0 : m0 ≤ t1
      · rw [if_pos hm0] at hq
        rw [find_most_similar_eq_of_some hashes cur j0 m0 ham t2,
          if_pos (by omega)]
        exact hq
      · rw [if_neg hm0] at hq
        exact absurd hq (by simp)
    · intro t
      rw [find_most_similar_eq_of_some hashes cur j0 m0 ham t]
      constructor
      · intro hnone
        by_cases hm0 : m0 ≤ t
        · rw [if_pos hm0] at hnone
          exact absurd hnone (by simp)
        · intro k hk
          have := hmin0 k hk
          omega
      · intro hall
        have := hall j0 hlen0
        rw [if_neg (by omega)]

/-- Claim C6 witness: threshold monotonicity applied to a concrete deck at
thresholds `2 ≤ 8`. -/
theorem find_most_similar_slide_index_threshold_mono_witness :
    (2 : ℕ) ≤ 8 ∧
    ((∀ p, find_most_similar_slide_index
        [[true, false], [false, false]] [false, false] 2 = some p →
      find_most_similar_slide_index
        [[true, false], [false, false]] [false, false] 8 = some p) ∧
    (∀ t, find_most_similar_slide_index
        [[true, false], [false, false]] [false, false] t = none ↔
      ∀ k, k < ([[true, false], [false, false]] : List PHash).length →
        t < (deck_distances [false, false] [[true, false], [false, false]]).getD k 0)) :=
  ⟨by decide,
   find_most_similar_slide_index_threshold_mono
     [[true, false], [false, false]] [false, false] 2 8 (by decide)⟩

end SlideSync

namespace SlideSync

theorem uint32_le_iff (a b : UInt32) : (a ≤ b) ↔ a.toNat ≤ b.toNat :=
  ⟨fun h => h, fun h => h⟩

theorem char_eq_of_toNat (c d : Char) (h : c.toNat = d.toNat) : c = d :=
  Char.ext (UInt32.ext h)

theorem toLower_toNat (c : Char) :
    c.toLower.toNat =
      if 65 ≤ c.toNat ∧ c.toNat ≤ 90 then c.toNat + 32 else c.toNat := by
  show (Char.toLower c).toNat = _
  simp only [Char.toLower]
  split
  · rename_i h
    unfold Char.ofNat
    rw [dif_pos (Or.inl (by omega))]
    rfl
  · rfl

theorem is_word_char_iff (c : Char) :
    is_word_char c = true ↔
      (65 ≤ c.toNat ∧ c.toNat ≤ 90) ∨ (97 ≤ c.toNat ∧ c.toNat ≤ 122) ∨
        (48 ≤ c.toNat ∧ c.toNat ≤ 57) ∨ c.toNat = 95 := by
  simp only [is_word_char, Bool.or_eq_true, Char.isAlphanum, Char.isAlpha,
    Char.isUpper, Char.isLower, Char.isDigit, Bool.and_eq_true,
    decide_eq_true_eq, beq_iff_eq]
  constructor
  · rintro (((⟨h1, h2⟩ | ⟨h1, h2⟩) | ⟨h1, h2⟩) | h)
    · exact Or.inl ⟨(uint32_le_iff _ _).mp h1, (uint32_le_iff _ _).mp h2⟩
    · exact Or.inr (Or.inl ⟨(uint32_le_iff _ _).mp h1, (uint32_le_iff _ _).mp h2⟩)
    · exact Or.inr (Or.inr (Or.inl ⟨(uint32_le_iff _ _).mp h1, (uint32_le_iff _ _).mp h2⟩))
    · refine Or.inr (Or.inr (Or.inr ?_))
      rw [h]
      rfl
  · rintro (⟨h1, h2⟩ | ⟨h1, h2⟩ | ⟨h1, h2⟩ | h)
    · exact Or.inl (Or.inl (Or.inl ⟨(uint32_le_iff _ _).mpr h1, (uint32_le_iff _ _).mpr h2⟩))
    · exact Or.inl (Or.inl (Or.inr ⟨(uint32_le_iff _ _).mpr h1, (uint32_le_iff _ _).mpr h2⟩))
    · exact Or.inl (Or.inr ⟨(uint32_le_iff _ _).mpr h1, (uint32_le_iff _ _).mpr h2⟩)
    · exact Or.inr (char_eq_of_toNat c '_' h)

theorem is_word_char_of_toLower_eq (c k : Char) (h : c.toLower = k.toLower)
    (hk : is_word_char k = true) : is_word_char c = true := by
  have hn : c.toLower.toNat = k.toLower.toNat := by rw [h]
  rw [toLower_toNat, toLower_toNat] at hn
  rw [is_word_char_iff] at hk ⊢
  split_ifs at hn <;> omega

theorem not_word_of_whitespace (c : Char) (h : c.isWhitespace = true) :
    is_word_char c = false := by
  simp only [Char.isWhitespace, Bool.or_eq_true, decide_eq_true_eq] at h
  rcases h with ((h | h) | h) | h <;> subst h <;> rfl

theorem forall_word_of_lower_eq (mid kw : List Char)
    (h : mid.map Char.toLower = kw.map Char.toLower)
    (hk : ∀ c ∈ kw, is_word_char c = true) :
    ∀ c ∈ mid, is_word_char c = true := by
  induction mid generalizing kw with
  | nil => simp
  | cons a t ih =>
    cases kw with
    | nil => simp at h
    | cons b kt =>
      simp only [List.map_cons, List.cons.injEq] at h
      obtain ⟨h1, h2⟩ := h
      intro c hc
      rcases List.mem_cons.mp hc with hc | hc
      · subst hc
        exact is_word_char_of_toLower_eq c b h1 (hk b (by simp))
      · exact ih kt h2 (fun d hd => hk d (by simp [hd])) c hc

end SlideSync

namespace SlideSync

theorem standaloneOcc_reverse (kw w : List Char) (h : StandaloneOcc kw w) :
    StandaloneOcc kw.reverse w.reverse := by
  obtain ⟨pre, mid, post, hw, hm, hl, hr⟩ := h
  refine ⟨post.reverse, mid.reverse, pre.reverse, ?_, ?_, ?_, ?_⟩
  · rw [hw]
    simp [List.reverse_append, List.append_assoc]
  · rw [List.map_reverse, List.map_reverse, hm]
  · intro c hc
    rw [List.getLast?_reverse] at hc
    exact hr c hc
  · intro c hc
    rw [List.head?_reverse] at hc
    exact hl c hc

theorem standaloneOcc_reverse_iff (kw w : List Char) :
    StandaloneOcc kw w ↔ StandaloneOcc kw.reverse w.reverse :=
  ⟨standaloneOcc_reverse kw w, fun h => by
    simpa using standaloneOcc_reverse kw.reverse w.reverse h⟩

theorem standaloneOcc_ws_leading (kw w : List Char) (hne : kw ≠ [])
    (hkw : ∀ c ∈ kw, is_word_char c = true) :
    ∀ pfx, (∀ c ∈ pfx, c.isWhitespace = true) →
      (StandaloneOcc kw (pfx ++ w) ↔ StandaloneOcc kw w) := by
  intro pfx
  induction pfx with
  | nil =>
    intro _
    simp
  | cons a p ih =>
    intro hpfx
    have ha := hpfx a (by simp)
    have hp : ∀ c ∈ p, c.isWhitespace = true := fun c hc => hpfx c (by simp [hc])
    rw [List.cons_append]
    constructor
    · rintro ⟨pre, mid, post, hw, hm, hl, hr⟩
      have hmidw : ∀ c ∈ mid, is_word_char c = true :=
        forall_word_of_lower_eq mid kw hm hkw
      have hmidne : mid ≠ [] := by
        intro hmid
        subst hmid
        cases kw with
        | nil => exact hne rfl
        | cons k kt => simp at hm
      cases pre with
      | nil =>
        exfalso
        cases mid with
        | nil => exact hmidne rfl
        | cons m ms =>
          simp only [List.nil_append, List.cons_append, List.cons.injEq] at hw
          obtain ⟨ham, _⟩ := hw
          have hward : is_word_char a = true := ham ▸ hmidw m (by simp)
          rw [not_word_of_whitespace a ha] at hward
          exact Bool.false_ne_true hward
      | cons b pre2 =>
        have hw2 : a = b ∧ p ++ w = (pre2 ++ mid) ++ post := by
          rw [List.cons_append, List.cons_append] at hw
          exact ⟨(List.cons.injEq _ _ _ _).mp hw |>.1,
            (List.cons.injEq _ _ _ _).mp hw |>.2⟩
        refine (ih hp).mp ⟨pre2, mid, post, hw2.2, hm, ?_, hr⟩
        intro c hc
        apply hl c
        rw [List.getLast?_cons, hc]
        rfl
    · intro hocc
      obtain ⟨pre, mid, post, hw, hm, hl, hr⟩ := (ih hp).mpr hocc
      refine ⟨a :: pre, mid, post, ?_, hm, ?_, hr⟩
      · rw [List.cons_append, List.cons_append, ← hw]
      · intro c hc
        rw [List.getLast?_cons] at hc
        cases hgl : pre.getLast? with
        | none =>
          rw [hgl] at hc
          simp only [Option.getD_none, Option.some.injEq] at hc
          subst hc
          exact not_word_of_whitespace a ha
        | some d =>
          rw [hgl] at hc
          simp only [Option.getD_some, Option.some.injEq] at hc
          subst hc
          exact hl d hgl

theorem standaloneOcc_ws_suffix (kw w : List Char) (hne : kw ≠ [])
    (hkw : ∀ c ∈ kw, is_word_char c = true) :
    ∀ sfx, (∀ c ∈ sfx, c.isWhitespace = true) →
      (StandaloneOcc kw (w ++ sfx) ↔ StandaloneOcc kw w) := by
  intro sfx hsfx
  have hne2 : kw.reverse ≠ [] := by simpa using hne
  have hkw2 : ∀ c ∈ kw.reverse, is_word_char c = true := by
    intro c hc
    exact hkw c (List.mem_reverse.mp hc)
  have hsfx2 : ∀ c ∈ sfx.reverse, c.isWhitespace = true := by
    intro c hc
    exact hsfx c (List.mem_reverse.mp hc)
  calc StandaloneOcc kw (w ++ sfx)
      ↔ StandaloneOcc kw.reverse (w ++ sfx).reverse :=
        standaloneOcc_reverse_iff kw (w ++ sfx)
    _ ↔ StandaloneOcc kw.reverse (sfx.reverse ++ w.reverse) := by
        rw [List.reverse_append]
    _ ↔ StandaloneOcc kw.reverse w.reverse :=
        standaloneOcc_ws_leading kw.reverse w.reverse hne2 hkw2 sfx.reverse hsfx2
    _ ↔ StandaloneOcc kw w := (standaloneOcc_reverse_iff kw w).symm

theorem standaloneOcc_py_strip (kw w : List Char) (hne : kw ≠ [])
    (hkw : ∀ c ∈ kw, is_word_char c = true) :
    StandaloneOcc kw (py_strip w) ↔ StandaloneOcc kw w := by
  unfold py_strip
  set t := w.takeWhile Char.isWhitespace with hts
  set d := w.dropWhile Char.isWhitespace with hds
  have hw : t ++ d = w := List.takeWhile_append_dropWhile Char.isWhitespace w
  set core := (d.reverse.dropWhile Char.isWhitespace).reverse with hcs
  set sfx := (d.reverse.takeWhile Char.isWhitespace).reverse with hss
  have hd : d = core ++ sfx := by
    have h1 : d.reverse.takeWhile Char.isWhitespace ++
        d.reverse.dropWhile Char.isWhitespace = d.reverse :=
      List.takeWhile_append_dropWhile Char.isWhitespace d.reverse
    have h2 := congrArg List.reverse h1
    rw [List.reverse_append, List.reverse_reverse] at h2
    rw [← h2, hcs, hss]
  have htws : ∀ c ∈ t, c.isWhitespace = true := by
    intro c hc
    exact List.mem_takeWhile_imp hc
  have hsws : ∀ c ∈ sfx, c.isWhitespace = true := by
    intro c hc
    exact List.mem_takeWhile_imp (List.mem_reverse.mp hc)
  calc StandaloneOcc kw core
      ↔ StandaloneOcc kw (core ++ sfx) :=
        (standaloneOcc_ws_suffix kw core hne hkw sfx hsws).symm
    _ ↔ StandaloneOcc kw d := by rw [← hd]
    _ ↔ StandaloneOcc kw (t ++ d) :=
        (standaloneOcc_ws_leading kw d hne hkw t htws).symm
    _ ↔ StandaloneOcc kw w := by rw [hw]

end SlideSync

namespace SlideSync

theorem lower_eq_iff (a b : List Char) :
    lower_eq a b = true ↔ a.map Char.toLower = b.map Char.toLower := by
  unfold lower_eq
  exact ⟨eq_of_beq, fun h => by rw [h]; exact beq_self_eq_true _⟩

theorem standalone_word_match_iff (kw w : List Char) :
    standalone_word_match kw w = true ↔ StandaloneOcc kw w := by
  unfold standalone_word_match
  rw [List.any_eq_true]
  constructor
  · rintro ⟨i, hi, hmatch⟩
    rw [List.mem_range] at hi
    unfold match_at at hmatch
    simp only [Bool.and_eq_true, decide_eq_true_eq, Bool.or_eq_true,
      Bool.not_eq_true'] at hmatch
    obtain ⟨⟨⟨hlen, hle⟩, hbl⟩, hbr⟩ := hmatch
    refine ⟨w.take i, (w.drop i).take kw.length, w.drop (i + kw.length),
      ?_, ?_, ?_, ?_⟩
    · have h2 : (w.drop i).take kw.length ++ w.drop (i + kw.length) =
          w.drop i := by
        have h3 := List.take_append_drop kw.length (w.drop i)
        rwa [List.drop_drop] at h3
      rw [List.append_assoc, h2, List.take_append_drop]
    · exact (lower_eq_iff _ _).mp hle
    · intro c hc
      by_cases hi0 : i = 0
      · subst hi0
        simp at hc
      · have hilen : i ≤ w.length := by omega
        have hlen_take : (w.take i).length = i := by
          rw [List.length_take]
          omega
        rw [List.getLast?_eq_getElem?, hlen_take,
          List.getElem?_take_of_lt (by omega : i - 1 < i)] at hc
        rcases hbl with h0 | hword
        · exact absurd h0 hi0
        · have hgd : w.getD (i - 1) ' ' = c := by
            rw [List.getD_eq_getElem?_getD, hc]
            rfl
          rw [hgd] at hword
          exact hword
    · intro c hc
      by_cases hend : i + kw.length = w.length
      · rw [hend, List.drop_length] at hc
        simp at hc
      · rcases hbr with h0 | hword
        · exact absurd h0 hend
        · have hhd : (w.drop (i + kw.length)).head? = w[i + kw.length]? := by
            rw [List.head?_eq_getElem?, List.getElem?_drop]
            simp
          rw [hhd] at hc
          have hgd : w.getD (i + kw.length) ' ' = c := by
            rw [List.getD_eq_getElem?_getD, hc]
            rfl
          rw [hgd] at hword
          exact hword
  · rintro ⟨pre, mid, post, hw, hm, hl, hr⟩
    have hmlen : mid.length = kw.length := by
      have := congrArg List.length hm
      simpa using this
    have hwlen : w.length = pre.length + mid.length + post.length := by
      rw [hw]
      simp
      omega
    refine ⟨pre.length, ?_, ?_⟩
    · rw [List.mem_range]
      omega
    · unfold match_at
      simp only [Bool.and_eq_true, decide_eq_true_eq, Bool.or_eq_true,
        Bool.not_eq_true']
      have hdrop : w.drop pre.length = mid ++ post := by
        rw [hw, List.append_assoc, List.drop_left]
      have htake : (w.drop pre.length).take kw.length = mid := by
        rw [hdrop, ← hmlen, List.take_left]
      refine ⟨⟨⟨by omega, ?_⟩, ?_⟩, ?_⟩
      · rw [htake]
        exact (lower_eq_iff _ _).mpr hm
      · by_cases hp0 : pre.length = 0
        · exact Or.inl hp0
        · refine Or.inr ?_
          cases hgl : pre.getLast? with
          | none =>
            rw [List.getLast?_eq_none_iff] at hgl
            subst hgl
            simp at hp0
          | some c =>
            have hc := hl c hgl
            have hgd : w.getD (pre.length - 1) ' ' = c := by
              rw [List.getD_eq_getElem?_getD, hw]
              rw [List.getElem?_append_left
                (by rw [List.length_append]; omega :
                  pre.length - 1 < (pre ++ mid).length)]
              rw [List.getElem?_append_left (by omega : pre.length - 1 < pre.length)]
              rw [List.getLast?_eq_getElem?] at hgl
              rw [hgl]
              rfl
            rw [hgd]
            exact hc
      · by_cases hpe : pre.length + kw.length = w.length
        · exact Or.inl hpe
        · refine Or.inr ?_
          have hpost : post ≠ [] := by
            intro hp
            subst hp
            simp at hwlen
            omega
          cases hhd : post.head? with
          | none =>
            rw [List.head?_eq_none_iff] at hhd
            exact absurd hhd hpost
          | some c =>
            have hc := hr c hhd
            have hgd : w.getD (pre.length + kw.length) ' ' = c := by
              rw [List.getD_eq_getElem?_getD, hw]
              rw [List.getElem?_append_right
                (by rw [List.length_append]; omega :
                  (pre ++ mid).length ≤ pre.length + kw.length)]
              rw [List.length_append, hmlen]
              have hz : pre.length + kw.length - (pre.length + kw.length) = 0 := by
                omega
              rw [hz]
              rw [List.head?_eq_getElem?] at hhd
              rw [hhd]
              rfl
            rw [hgd]
            exact hc

end SlideSync

namespace SlideSync

theorem standaloneOcc_ne_nil (kw w : List Char) (hne : kw ≠ [])
    (h : StandaloneOcc kw w) : w ≠ [] := by
  obtain ⟨pre, mid, post, hw, hm, _, _⟩ := h
  intro h0
  rw [h0] at hw
  have hpre := List.append_eq_nil.mp hw.symm
  have hmid := List.append_eq_nil.mp hpre.1
  rw [hmid.2] at hm
  simp only [List.map_nil] at hm
  exact hne (List.map_eq_nil_iff.mp hm.symm)

theorem mem_found_iff (words keywords : List (List Char)) (kw : List Char) :
    (get_matching_keywords words keywords).contains kw = true ↔
      kw ∈ keywords ∧ ∃ w ∈ words, standalone_word_match kw w = true := by
  simp [get_matching_keywords, List.mem_filter, List.any_eq_true]

theorem mem_valid_words_iff (ocr : List OcrEntry) (t : ℤ) (w : List Char) :
    (w ∈ ((filter_words_by_confidence ocr t).map py_strip).filter
        (fun w => !w.isEmpty)) ↔
      (∃ e ∈ ocr, t ≤ e.conf ∧ w = py_strip (py_strip e.text)) ∧ w ≠ [] := by
  rw [List.mem_filter]
  constructor
  · rintro ⟨hmem, hne⟩
    rw [List.mem_map] at hmem
    obtain ⟨v, hv, rfl⟩ := hmem
    rw [filter_words_by_confidence, List.mem_map] at hv
    obtain ⟨e, he, rfl⟩ := hv
    rw [List.mem_filter] at he
    refine ⟨⟨e, he.1, by simpa using he.2, rfl⟩, by simpa using hne⟩
  · rintro ⟨⟨e, he, hconf, rfl⟩, hne⟩
    constructor
    · rw [List.mem_map]
      refine ⟨py_strip e.text, ?_, rfl⟩
      rw [filter_words_by_confidence, List.mem_map]
      refine ⟨e, ?_, rfl⟩
      rw [List.mem_filter]
      exact ⟨he, by simpa using hconf⟩
    · simpa using hne

/-- Claim C5: for every frame (identified with its OCR output) and every
keyword set of non-empty word-character keywords, `are_all_keywords_present`
returns `true` iff each keyword has at least one OCR entry with confidence
at or above the threshold in whose text the keyword occurs as a standalone
word under case-insensitive word-boundary matching. -/
theorem are_all_keywords_present_iff (ocr : List OcrEntry)
    (keywords : List (List Char)) (t : ℤ)
    (hkw : ∀ kw ∈ keywords, kw ≠ [] ∧ ∀ c ∈ kw, is_word_char c = true) :
    (are_all_keywords_present ocr keywords t = true ↔
      ∀ kw ∈ keywords, ∃ e ∈ ocr, t ≤ e.conf ∧ StandaloneOcc kw e.text) := by
  simp only [are_all_keywords_present, List.all_eq_true]
  constructor
  · intro hall kw hkwmem
    obtain ⟨hne, hwc⟩ := hkw kw hkwmem
    have h1 := (mem_found_iff _ keywords kw).mp (hall kw hkwmem)
    obtain ⟨-, w, hwmem, hwmatch⟩ := h1
    obtain ⟨⟨e, he, hconf, rfl⟩, -⟩ := (mem_valid_words_iff ocr t w).mp hwmem
    refine ⟨e, he, hconf, ?_⟩
    have hocc := (standalone_word_match_iff kw _).mp hwmatch
    rwa [standaloneOcc_py_strip kw _ hne hwc,
      standaloneOcc_py_strip kw _ hne hwc] at hocc
  · intro hex kw hkwmem
    obtain ⟨hne, hwc⟩ := hkw kw hkwmem
    obtain ⟨e, he, hconf, hocc⟩ := hex kw hkwmem
    have hocc2 : StandaloneOcc kw (py_strip (py_strip e.text)) := by
      rwa [standaloneOcc_py_strip kw _ hne hwc,
        standaloneOcc_py_strip kw _ hne hwc]
    apply (mem_found_iff _ keywords kw).mpr
    refine ⟨hkwmem, py_strip (py_strip e.text), ?_,
      (standalone_word_match_iff kw _).mpr hocc2⟩
    exact (mem_valid_words_iff ocr t _).mpr
      ⟨⟨e, he, hconf, rfl⟩, standaloneOcc_ne_nil kw _ hne hocc2⟩

/-- Claim C5 witness: the characterisation applied to one OCR entry
`("Hi", 90)` and keyword set `["HI"]` at threshold `80`. -/
theorem are_all_keywords_present_iff_witness :
    (∀ kw ∈ [['H', 'I']], kw ≠ [] ∧ ∀ c ∈ kw, is_word_char c = true) ∧
    (are_all_keywords_present [⟨['H', 'i'], 90⟩] [['H', 'I']] 80 = true ↔
      ∀ kw ∈ [['H', 'I']], ∃ e ∈ [(⟨['H', 'i'], 90⟩ : OcrEntry)],
        (80 : ℤ) ≤ e.conf ∧ StandaloneOcc kw e.text) :=
  ⟨by decide, are_all_keywords_present_iff [⟨['H', 'i'], 90⟩] [['H', 'I']] 80
    (by decide)⟩

/-- Claim C7: the keyword oracle is antitone in the OCR confidence
threshold — if it accepts at threshold `t2` it accepts at every
`t1 ≤ t2`, because the word set kept at the lower threshold is a superset
of the set kept at the higher one. -/
theorem are_all_keywords_present_conf_mono (ocr : List OcrEntry)
    (keywords : List (List Char)) (t1 t2 : ℤ) (h12 : t1 ≤ t2)
    (hacc : are_all_keywords_present ocr keywords t2 = true) :
    are_all_keywords_present ocr keywords t1 = true := by
  simp only [are_all_keywords_present, List.all_eq_true] at hacc ⊢
  intro kw hkwmem
  have h1 := (mem_found_iff _ keywords kw).mp (hacc kw hkwmem)
  obtain ⟨-, w, hwmem, hwmatch⟩ := h1
  obtain ⟨⟨e, he, hconf, hw⟩, hne⟩ := (mem_valid_words_iff ocr t2 w).mp hwmem
  apply (mem_found_iff _ keywords kw).mpr
  refine ⟨hkwmem, w, ?_, hwmatch⟩
  exact (mem_valid_words_iff ocr t1 w).mpr ⟨⟨e, he, by omega, hw⟩, hne⟩

/-- Claim C7 witness: acceptance at threshold `80` transfers to
threshold `0` on a concrete frame. -/
theorem are_all_keywords_present_conf_mono_witness :
    (0 : ℤ) ≤ 80 ∧
    are_all_keywords_present [⟨['H', 'i'], 90⟩] [['H', 'I']] 80 = true ∧
    are_all_keywords_present [⟨['H', 'i'], 90⟩] [['H', 'I']] 0 = true :=
  ⟨by decide, by decide,
   are_all_keywords_present_conf_mono [⟨['H', 'i'], 90⟩] [['H', 'I']] 0 80
     (by decide) (by decide)⟩

end SlideSync

namespace SlideSync

theorem first_slide_scan_ok_iff (kws : List (List Char)) (ct : ℤ) :
    ∀ (video : List Frame) (base n : ℕ) (f : Frame) (i : ℕ),
      first_slide_scan kws ct video base n = some (f, i) ↔
        ∃ k, i = base + k ∧ k < n ∧ video[k]? = some f ∧
          are_all_keywords_present f.ocr_data kws ct = true ∧
          ∀ j, j < k → ∀ g, video[j]? = some g →
            are_all_keywords_present g.ocr_data kws ct = false := by
  intro video
  induction video with
  | nil =>
    intro base n f i
    cases n <;> simp [first_slide_scan]
  | cons a rest ih =>
    intro base n f i
    cases n with
    | zero => simp [first_slide_scan]
    | succ m =>
      show (if are_all_keywords_present a.ocr_data kws ct = true then
          some (a, base) else first_slide_scan kws ct rest (base + 1) m) = _ ↔ _
      by_cases hp : are_all_keywords_present a.ocr_data kws ct = true
      · rw [if_pos hp]
        constructor
        · intro h
          simp only [Option.some.injEq, Prod.mk.injEq] at h
          obtain ⟨hf, hi⟩ := h
          subst hf
          refine ⟨0, by omega, by omega, by simp, hp, ?_⟩
          intro j hj
          exact absurd hj (by omega)
        · rintro ⟨k, hik, hkn, hkf, hpf, hmin⟩
          cases k with
          | zero =>
            simp only [List.getElem?_cons_zero, Option.some.injEq] at hkf
            subst hkf
            simp only [Option.some.injEq, Prod.mk.injEq]
            exact ⟨trivial, by omega⟩
          | succ k2 =>
            have := hmin 0 (by omega) a (by simp)
            rw [hp] at this
            exact absurd this (by simp)
      · rw [if_neg hp]
        rw [ih (base + 1) m f i]
        have hpf : are_all_keywords_present a.ocr_data kws ct = false := by
          simpa using hp
        constructor
        · rintro ⟨k, hik, hkn, hkf, hok, hmin⟩
          refine ⟨k + 1, by omega, by omega, by simpa using hkf, hok, ?_⟩
          intro j hj g hg
          cases j with
          | zero =>
            simp only [List.getElem?_cons_zero, Option.some.injEq] at hg
            subst hg
            exact hpf
          | succ j2 =>
            exact hmin j2 (by omega) g (by simpa using hg)
        · rintro ⟨k, hik, hkn, hkf, hok, hmin⟩
          cases k with
          | zero =>
            simp only [List.getElem?_cons_zero, Option.some.injEq] at hkf
            subst hkf
            rw [hok] at hpf
            exact absurd hpf (by simp)
          | succ k2 =>
            refine ⟨k2, by omega, by omega, by simpa using hkf, hok, ?_⟩
            intro j hj g hg
            exact hmin (j + 1) (by omega) g (by simpa using hg)

theorem first_slide_scan_none_iff (kws : List (List Char)) (ct : ℤ) :
    ∀ (video : List Frame) (base n : ℕ),
      first_slide_scan kws ct video base n = none ↔
        ∀ k, k < n → ∀ g, video[k]? = some g →
          are_all_keywords_present g.ocr_data kws ct = false := by
  intro video
  induction video with
  | nil =>
    intro base n
    cases n <;> simp [first_slide_scan]
  | cons a rest ih =>
    intro base n
    cases n with
    | zero => simp [first_slide_scan]
    | succ m =>
      show (if are_all_keywords_present a.ocr_data kws ct = true then
          some (a, base) else first_slide_scan kws ct rest (base + 1) m) = _ ↔ _
      by_cases hp : are_all_keywords_present a.ocr_data kws ct = true
      · rw [if_pos hp]
        constructor
        · intro h
          exact absurd h (by simp)
        · intro hall
          have := hall 0 (by omega) a (by simp)
          rw [hp] at this
          exact absurd this (by simp)
      · rw [if_neg hp]
        rw [ih (base + 1) m]
        constructor
        · intro hall k hk g hg
          cases k with
          | zero =>
            simp only [List.getElem?_cons_zero, Option.some.injEq] at hg
            subst hg
            simpa using hp
          | succ k2 =>
            exact hall k2 (by omega) g (by simpa using hg)
        · intro hall k hk g hg
          exact hall (k + 1) (by omega) g (by simpa using hg)

/-- Claim C3: the app-layer first-slide search examines frames in
increasing order starting at frame 0, attempts at most
`int(max_seconds × fps)` frames, and returns the first frame on which the
keyword oracle succeeds together with its frame index; when no frame
within the cap qualifies it fails with `FirstSlideNotFoundError` instead
of returning an empty result. -/
theorem detect_first_slide_spec (video : List Frame)
    (keywords : List (List Char)) (max_seconds : ℕ) (fps : ℚ) (ct : ℤ) :
    (∀ f i, detect_first_slide video keywords max_seconds fps ct = .ok (f, i) ↔
      (i < (py_int ((max_seconds : ℚ) * fps)).toNat ∧ video[i]? = some f ∧
        are_all_keywords_present f.ocr_data keywords ct = true ∧
        ∀ j, j < i → ∀ g, video[j]? = some g →
          are_all_keywords_present g.ocr_data keywords ct = false)) ∧
    (detect_first_slide video keywords max_seconds fps ct =
        .error .firstSlideNotFound ↔
      ∀ i, i < (py_int ((max_seconds : ℚ) * fps)).toNat →
        ∀ g, video[i]? = some g →
          are_all_keywords_present g.ocr_data keywords ct = false) := by
  constructor
  · intro f i
    unfold detect_first_slide
    cases hscan : first_slide_scan keywords ct video 0
        (py_int ((max_seconds : ℚ) * fps)).toNat with
    | none =>
      simp only
      constructor
      · intro h
        exact absurd h (by simp)
      · rintro ⟨hi, hf, hok, hmin⟩
        rw [first_slide_scan_none_iff] at hscan
        have := hscan i hi f hf
        rw [hok] at this
        exact absurd this (by simp)
    | some hit =>
      obtain ⟨g, k⟩ := hit
      simp only
      rw [first_slide_scan_ok_iff] at hscan
      obtain ⟨k2, hik, hkn, hkf, hok, hmin⟩ := hscan
      have hk2 : k = k2 := by omega
      subst hk2
      constructor
      · intro h
        simp only [Except.ok.injEq, Prod.mk.injEq] at h
        obtain ⟨hg, hk⟩ := h
        subst hg
        subst hk
        exact ⟨by omega, hkf, hok, fun j hj g2 hg2 => hmin j (by omega) g2 hg2⟩
      · rintro ⟨hi, hf, hokf, hminf⟩
        have hik2 : i = k := by
          by_contra hne
          rcases Nat.lt_or_ge i k with hlt | hge
          · have := hmin i (by omega) f hf
            rw [hokf] at this
            exact absurd this (by simp)
          · have hlt2 : k < i := by omega
            have := hminf k hlt2 g hkf
            rw [hok] at this
            exact absurd this (by simp)
        subst hik2
        rw [hkf] at hf
        simp only [Option.some.injEq] at hf
        subst hf
        rfl
  · unfold detect_first_slide
    cases hscan : first_slide_scan keywords ct video 0
        (py_int ((max_seconds : ℚ) * fps)).toNat with
    | none =>
      simp only
      rw [first_slide_scan_none_iff] at hscan
      exact ⟨fun _ => hscan, fun _ => by trivial⟩
    | some hit =>
      obtain ⟨g, k⟩ := hit
      simp only
      rw [first_slide_scan_ok_iff] at hscan
      obtain ⟨k2, hik, hkn, hkf, hok, hmin⟩ := hscan
      constructor
      · intro h
        exact absurd h (by simp)
      · intro hall
        have := hall k2 (by omega) g hkf
        rw [hok] at this
        exact absurd this (by simp)

/-- Claim C10: with an empty required keyword set the keyword oracle
accepts every frame (the subset check is vacuous), and therefore the
first-slide search with no keywords succeeds on the very first frame it
examines (index 0), for any positive attempt budget. -/
theorem are_all_keywords_present_empty_keywords :
    (∀ (ocr : List OcrEntry) (t : ℤ),
      are_all_keywords_present ocr [] t = true) ∧
    (∀ (f : Frame) (rest : List Frame) (max_seconds : ℕ) (fps : ℚ) (ct : ℤ),
      1 ≤ (py_int ((max_seconds : ℚ) * fps)).toNat →
      detect_first_slide (f :: rest) [] max_seconds fps ct = .ok (f, 0)) := by
  have hempty : ∀ (ocr : List OcrEntry) (t : ℤ),
      are_all_keywords_present ocr [] t = true := by
    intro ocr t
    simp [are_all_keywords_present]
  refine ⟨hempty, ?_⟩
  intro f rest max_seconds fps ct hcap
  unfold detect_first_slide
  cases hc : (py_int ((max_seconds : ℚ) * fps)).toNat with
  | zero => omega
  | succ m =>
    have hstep : first_slide_scan [] ct (f :: rest) 0 (m + 1) = some (f, 0) := by
      show (if are_all_keywords_present f.ocr_data [] ct = true then
          some (f, 0) else first_slide_scan [] ct rest 1 m) = some (f, 0)
      rw [if_pos (hempty f.ocr_data ct)]
    rw [hstep]

/-- Claim C10 witness: the first-slide consequence at a concrete
single-frame video with a 30-second budget at 1 fps. -/
theorem are_all_keywords_present_empty_keywords_witness :
    1 ≤ (py_int ((30 : ℕ) * (1 : ℚ))).toNat ∧
    detect_first_slide [Frame.mk []] [] 30 1 80 = .ok (Frame.mk [], 0) :=
  ⟨by norm_num [py_int],
   are_all_keywords_present_empty_keywords.2 (Frame.mk []) [] 30 1 80
     (by norm_num [py_int])⟩

end SlideSync

namespace SlideSync

theorem foldl_largest_mem (t : List Contour) :
    ∀ c0 : Contour,
      t.foldl (fun best c2 => if c2.area > best.area then c2 else best) c0 ∈
        c0 :: t := by
  induction t with
  | nil => intro c0; simp
  | cons a t2 ih =>
    intro c0
    rw [List.foldl_cons]
    by_cases ha : a.area > c0.area
    · rw [if_pos ha]
      have := ih a
      rcases List.mem_cons.mp this with h | h
      · rw [h]
        simp
      · simp [List.mem_cons, h]
    · rw [if_neg ha]
      have := ih c0
      rcases List.mem_cons.mp this with h | h
      · rw [h]
        simp
      · simp [List.mem_cons, h]

theorem largest_contour_mem (l : List Contour) (c : Contour)
    (h : largest_contour l = some c) : c ∈ l := by
  cases l with
  | nil => simp [largest_contour] at h
  | cons c0 t =>
    simp only [largest_contour, Option.some.injEq] at h
    rw [← h]
    exact foldl_largest_mem t c0

theorem roi_rect_bounds (x y w h iw ih : ℤ) (hx : 0 ≤ x) (hy : 0 ≤ y)
    (hxw : x + w ≤ iw + 10) (hyh : y + h ≤ ih + 10)
    (hw : 500 ≤ w) (hh : 500 ≤ h) :
    0 ≤ max 0 (x - 5) ∧ max 0 (x - 5) < min iw (x + w - 5) ∧
      min iw (x + w - 5) ≤ iw ∧
      0 ≤ max 0 (y - 5) ∧ max 0 (y - 5) < min ih (y + h - 5) ∧
      min ih (y + h - 5) ≤ ih := by
  omega

/-- Claim C4: when edge detection yields no contours the RoI locator
fails with `RoiNotFoundError` (no-contours case); when the largest
bounding box fails the validity gates it fails with `RoiNotFoundError`
(too-small case); and whenever it succeeds on contours whose bounding
boxes lie in the padded image, the returned rectangle is non-degenerate
(strictly positive width and height, hence never zero-area). -/
theorem compute_roi_coordinates_failure (img_width img_height : ℤ) :
    (compute_roi_coordinates [] img_width img_height = .error .noContours) ∧
    (∀ contours c, largest_contour contours = some c →
      (c.w < 500 ∨ c.h < 500 ∨ c.w * c.h < 5000) →
      compute_roi_coordinates contours img_width img_height =
        .error .roiTooSmall) ∧
    (∀ contours l t r b,
      (∀ c ∈ contours, contour_in_padded c img_width img_height) →
      compute_roi_coordinates contours img_width img_height =
        .ok (l, t, r, b) →
      l < r ∧ t < b) := by
  refine ⟨rfl, ?_, ?_⟩
  · intro contours c hlg hsmall
    unfold compute_roi_coordinates
    rw [hlg]
    simp only
    rw [if_pos hsmall]
  · intro contours l t r b hin hok
    unfold compute_roi_coordinates at hok
    cases hlg : largest_contour contours with
    | none =>
      rw [hlg] at hok
      exact absurd hok (by simp)
    | some c =>
      rw [hlg] at hok
      simp only at hok
      by_cases hsmall : c.w < 500 ∨ c.h < 500 ∨ c.w * c.h < 5000
      · rw [if_pos hsmall] at hok
        exact absurd hok (by simp)
      · rw [if_neg hsmall] at hok
        simp only [Except.ok.injEq, Prod.mk.injEq] at hok
        obtain ⟨hl, ht, hr, hb⟩ := hok
        obtain ⟨hx, hy, hxw, hyh⟩ := hin c (largest_contour_mem contours c hlg)
        have hbounds := roi_rect_bounds c.x c.y c.w c.h img_width img_height
          hx hy hxw hyh (by omega) (by omega)
        subst hl
        subst ht
        subst hr
        subst hb
        exact ⟨hbounds.2.1, hbounds.2.2.2.2.1⟩

/-- Claim C4 witness: the three conjuncts applied at a 1920×1080 frame: an
empty contour list, a 100×100 contour, and a successful 600×600 contour. -/
theorem compute_roi_coordinates_failure_witness :
    (compute_roi_coordinates [] 1920 1080 = .error .noContours) ∧
    (compute_roi_coordinates [⟨100, 0, 0, 100, 100⟩] 1920 1080 =
      .error .roiTooSmall) ∧
    (5 : ℤ) < 605 ∧ (5 : ℤ) < 605 :=
  ⟨(compute_roi_coordinates_failure 1920 1080).1,
   (compute_roi_coordinates_failure 1920 1080).2.1 [⟨100, 0, 0, 100, 100⟩]
     ⟨100, 0, 0, 100, 100⟩ (by rfl) (by decide),
   (compute_roi_coordinates_failure 1920 1080).2.2
     [⟨360000, 10, 10, 600, 600⟩] 5 5 605 605 (by decide) (by rfl)⟩

/-- Claim C9: whenever `extract_slide_roi_coordinates` (with the default
gates 500/500/5000) succeeds on contours whose bounding boxes lie in the
padded image, the selected bounding box passed the validity gates
`width ≥ 500`, `height ≥ 500`, `width × height ≥ 5000`, and the returned
rectangle lies inside the original frame with positive extent:
`0 ≤ left < right ≤ image width` and `0 ≤ top < bottom ≤ image height`. -/
theorem extract_slide_roi_success (contours : List Contour)
    (img_width img_height : ℤ)
    (hin : ∀ c ∈ contours, contour_in_padded c img_width img_height)
    (l t r b : ℤ)
    (hok : extract_slide_roi_coordinates contours img_width img_height
      500 500 5000 = some (l, t, r, b)) :
    (∃ c, largest_contour contours = some c ∧
      500 ≤ c.w ∧ 500 ≤ c.h ∧ 5000 ≤ c.w * c.h) ∧
    0 ≤ l ∧ l < r ∧ r ≤ img_width ∧ 0 ≤ t ∧ t < b ∧ b ≤ img_height := by
  unfold extract_slide_roi_coordinates at hok
  cases hlg : largest_contour contours with
  | none =>
    rw [hlg] at hok
    exact absurd hok (by simp)
  | some c =>
    rw [hlg] at hok
    simp only at hok
    by_cases hgate : 500 ≤ c.w ∧ 500 ≤ c.h ∧ 5000 ≤ c.w * c.h
    · rw [if_pos hgate] at hok
      simp only [Option.some.injEq, Prod.mk.injEq] at hok
      obtain ⟨hl, ht, hr, hb⟩ := hok
      obtain ⟨hx, hy, hxw, hyh⟩ := hin c (largest_contour_mem contours c hlg)
      have hbounds := roi_rect_bounds c.x c.y c.w c.h img_width img_height
        hx hy hxw hyh hgate.1 hgate.2.1
      subst hl
      subst ht
      subst hr
      subst hb
      exact ⟨⟨c, rfl, hgate⟩, hbounds.1, hbounds.2.1, hbounds.2.2.1,
        hbounds.2.2.2.1, hbounds.2.2.2.2.1, hbounds.2.2.2.2.2⟩
    · rw [if_neg hgate] at hok
      exact absurd hok (by simp)

/-- Claim C9 witness: a successful extraction of a 600×600 contour in a
1920×1080 frame. -/
theorem extract_slide_roi_success_witness :
    (∀ c ∈ [(⟨360000, 10, 10, 600, 600⟩ : Contour)],
      contour_in_padded c 1920 1080) ∧
    (extract_slide_roi_coordinates [⟨360000, 10, 10, 600, 600⟩] 1920 1080
      500 500 5000 = some (5, 5, 605, 605)) ∧
    ((∃ c, largest_contour [(⟨360000, 10, 10, 600, 600⟩ : Contour)] = some c ∧
      500 ≤ c.w ∧ 500 ≤ c.h ∧ 5000 ≤ c.w * c.h) ∧
    (0 : ℤ) ≤ 5 ∧ (5 : ℤ) < 605 ∧ (605 : ℤ) ≤ 1920 ∧
    (0 : ℤ) ≤ 5 ∧ (5 : ℤ) < 605 ∧ (605 : ℤ) ≤ 1080) :=
  ⟨by decide, by rfl,
   extract_slide_roi_success [⟨360000, 10, 10, 600, 600⟩] 1920 1080
     (by decide) 5 5 605 605 (by rfl)⟩

end SlideSync

namespace SlideSync

theorem detect_fold_invariant (frames : List SampledFrame) :
    ∀ (st : SlideTracker) (acc : List (ℕ × ℕ)),
      frames.Pairwise (fun a b => a.frame_number < b.frame_number) →
      ((acc.map Prod.fst).Nodup) →
      (∀ p ∈ acc, p.1 ∈ st.seen_slide_indices) →
      ((acc.map Prod.snd).Pairwise (· < ·)) →
      (∀ p ∈ acc, ∀ fr ∈ frames, p.2 < fr.frame_number) →
      (((frames.foldl (fun a fr => tracker_decision a.1 a.2 fr)
          (st, acc)).2.map Prod.fst).Nodup ∧
        ((frames.foldl (fun a fr => tracker_decision a.1 a.2 fr)
          (st, acc)).2.map Prod.snd).Pairwise (· < ·)) := by
  induction frames with
  | nil =>
    intro st acc _ h1 _ h3 _
    exact ⟨h1, h3⟩
  | cons fr rest ih =>
    intro st acc hfr h1 h2 h3 h4
    have hfr2 := (List.pairwise_cons.mp hfr).2
    have hfrhd := (List.pairwise_cons.mp hfr).1
    rw [List.foldl_cons]
    have hnoop : ∀ h1a : (acc.map Prod.fst).Nodup,
        ∀ h2a : (∀ p ∈ acc, p.1 ∈ st.seen_slide_indices),
        tracker_decision st acc fr = (st, acc) →
        (((rest.foldl (fun a fr => tracker_decision a.1 a.2 fr)
            (tracker_decision st acc fr)).2.map Prod.fst).Nodup ∧
          ((rest.foldl (fun a fr => tracker_decision a.1 a.2 fr)
            (tracker_decision st acc fr)).2.map Prod.snd).Pairwise (· < ·)) := by
      intro h1a h2a heq
      rw [heq]
      exact ih st acc hfr2 h1a h2a h3
        (fun p hp g hg => h4 p hp g (List.mem_cons_of_mem fr hg))
    cases hm : find_most_similar_slide_index st.lecture_slides.hashes
        fr.roi_hash st.max_hamming_distance with
    | none =>
      refine hnoop h1 h2 ?_
      unfold tracker_decision
      rw [hm]
    | some p =>
      obtain ⟨i, d⟩ := p
      by_cases hseen : has_seen_slide st i.toNat = true
      · refine hnoop h1 h2 ?_
        unfold tracker_decision
        rw [hm]
        simp only
        rw [if_pos hseen]
      · by_cases hconf : d < 2 ∨ fr.corroborated i.toNat = true
        · have heq : tracker_decision st acc fr =
              (mark_slide_as_seen st i.toNat,
                acc ++ [(i.toNat, fr.frame_number)]) := by
            unfold tracker_decision
            rw [hm]
            simp only
            rw [if_neg hseen, if_pos hconf]
          rw [heq]
          have hnotseen : i.toNat ∉ st.seen_slide_indices := by
            intro hmem
            exact hseen (by simpa [has_seen_slide] using hmem)
          apply ih
          · exact hfr2
          · rw [List.map_append, List.nodup_append]
            refine ⟨h1, by simp, ?_⟩
            intro a ha
            simp only [List.map_cons, List.map_nil, List.mem_singleton]
            intro hai
            rw [List.mem_map] at ha
            obtain ⟨q, hq, hqa⟩ := ha
            have := h2 q hq
            rw [hqa, hai] at this
            exact hnotseen this
          · intro q hq
            rcases List.mem_append.mp hq with hq2 | hq2
            · have := h2 q hq2
              simp only [mark_slide_as_seen]
              exact Finset.mem_insert_of_mem this
            · simp only [List.mem_singleton] at hq2
              subst hq2
              simp only [mark_slide_as_seen]
              exact Finset.mem_insert_self _ _
          · rw [List.map_append]
            rw [List.pairwise_append]
            refine ⟨h3, by simp, ?_⟩
            intro a ha b hb
            simp only [List.map_cons, List.map_nil, List.mem_singleton] at hb
            subst hb
            rw [List.mem_map] at ha
            obtain ⟨q, hq, hqa⟩ := ha
            rw [← hqa]
            exact h4 q hq fr (List.mem_cons_self fr rest)
          · intro q hq g hg
            rcases List.mem_append.mp hq with hq2 | hq2
            · exact h4 q hq2 g (List.mem_cons_of_mem fr hg)
            · simp only [List.mem_singleton] at hq2
              subst hq2
              exact hfrhd g hg
        · refine hnoop h1 h2 ?_
          unfold tracker_decision
          rw [hm]
          simp only
          rw [if_neg hseen, if_neg hconf]

/-- Claim C2: over any run whose sampled frames arrive in strictly
increasing frame-number order, the transition detector never confirms
the same page index twice (the recorded page indices are pairwise
distinct, enforced through `mark_slide_as_seen` / `has_seen_slide`), and
the frame numbers recorded in the Slide Transition Map are strictly
increasing in confirmation order. -/
theorem detect_slide_transitions_forward_only (st : SlideTracker)
    (frames : List SampledFrame)
    (hfr : frames.Pairwise (fun a b => a.frame_number < b.frame_number)) :
    ((detect_slide_transitions st frames).map Prod.fst).Nodup ∧
    ((detect_slide_transitions st frames).map Prod.snd).Pairwise (· < ·) := by
  unfold detect_slide_transitions
  exact detect_fold_invariant frames st [] hfr (by simp) (by simp) (by simp)
    (by simp)

/-- Claim C2 witness: a two-frame run over a one-page deck in which the
page is confirmed at frame 10 and not re-confirmed at frame 20. -/
theorem detect_slide_transitions_forward_only_witness :
    ([⟨10, [false, false], fun _ => true⟩,
      ⟨20, [false, false], fun _ => true⟩] : List SampledFrame).Pairwise
        (fun a b => a.frame_number < b.frame_number) ∧
    (((detect_slide_transitions (SlideTracker.init ⟨[[false, false]]⟩)
        [⟨10, [false, false], fun _ => true⟩,
         ⟨20, [false, false], fun _ => true⟩]).map Prod.fst).Nodup ∧
      ((detect_slide_transitions (SlideTracker.init ⟨[[false, false]]⟩)
        [⟨10, [false, false], fun _ => true⟩,
         ⟨20, [false, false], fun _ => true⟩]).map Prod.snd).Pairwise
        (· < ·)) :=
  ⟨by norm_num [List.pairwise_cons],
   detect_slide_transitions_forward_only (SlideTracker.init ⟨[[false, false]]⟩)
     [⟨10, [false, false], fun _ => true⟩,
      ⟨20, [false, false], fun _ => true⟩]
     (by norm_num [List.pairwise_cons])⟩

end SlideSync

namespace SlideSync

theorem py_round_le (q : ℚ) : ⌊q⌋ ≤ py_round q ∧ py_round q ≤ ⌊q⌋ + 1 := by
  unfold py_round
  split_ifs <;> omega

theorem py_round_mono (q1 q2 : ℚ) (h : q1 ≤ q2) :
    py_round q1 ≤ py_round q2 := by
  have hf : ⌊q1⌋ ≤ ⌊q2⌋ := Int.floor_le_floor h
  rcases eq_or_lt_of_le hf with heq | hlt
  · have hfrac : q1 - ⌊q1⌋ ≤ q2 - ⌊q1⌋ := by linarith
    unfold py_round
    rw [← heq]
    split_ifs <;> first | omega | linarith
  · have h1 := py_round_le q1
    have h2 := py_round_le q2
    omega

theorem generate_video_frame_loop_mem (tb rate : ℚ) (step start : ℕ) :
    ∀ (frames : List DecodedFrame) (counter : ℕ) (yf : YieldedFrame),
      yf ∈ generate_video_frame_loop tb rate step start frames counter →
      (start : ℤ) ≤ yf.frame_number ∧
        ∃ fr ∈ frames, ∃ p, fr.pts = some p ∧
          yf.frame_number = py_round ((p : ℚ) * tb * rate) := by
  intro frames
  induction frames with
  | nil =>
    intro counter yf hmem
    simp [generate_video_frame_loop] at hmem
  | cons fr rest ih =>
    intro counter yf hmem
    unfold generate_video_frame_loop at hmem
    cases hpts : fr.pts with
    | none =>
      rw [hpts] at hmem
      obtain ⟨hge, g, hg, hrest⟩ := ih counter yf hmem
      exact ⟨hge, g, List.mem_cons_of_mem fr hg, hrest⟩
    | some p =>
      rw [hpts] at hmem
      simp only at hmem
      by_cases hstep : counter % step ≠ 0
      · rw [if_pos hstep] at hmem
        obtain ⟨hge, g, hg, hrest⟩ := ih (counter + 1) yf hmem
        exact ⟨hge, g, List.mem_cons_of_mem fr hg, hrest⟩
      · rw [if_neg hstep] at hmem
        by_cases hlt : py_round ((p : ℚ) * tb * rate) < (start : ℤ)
        · rw [if_pos hlt] at hmem
          obtain ⟨hge, g, hg, hrest⟩ := ih counter yf hmem
          exact ⟨hge, g, List.mem_cons_of_mem fr hg, hrest⟩
        · rw [if_neg hlt] at hmem
          rcases List.mem_cons.mp hmem with hyf | hyf
          · subst hyf
            refine ⟨?_, fr, List.mem_cons_self fr rest, p, hpts, rfl⟩
            show (start : ℤ) ≤ py_round ((p : ℚ) * tb * rate)
            omega
          · obtain ⟨hge, g, hg, hrest⟩ := ih (counter + 1) yf hyf
            exact ⟨hge, g, List.mem_cons_of_mem fr hg, hrest⟩

theorem generate_video_frame_loop_sorted (tb rate : ℚ)
    (htb : 0 ≤ tb) (hrate : 0 ≤ rate) (step start : ℕ) :
    ∀ (frames : List DecodedFrame) (counter : ℕ),
      frames.Pairwise
        (fun a b => ∀ pa pb, a.pts = some pa → b.pts = some pb → pa < pb) →
      ((generate_video_frame_loop tb rate step start frames counter).map
        YieldedFrame.frame_number).Pairwise (· ≤ ·) := by
  intro frames
  induction frames with
  | nil =>
    intro counter _
    simp [generate_video_frame_loop]
  | cons fr rest ih =>
    intro counter hfr
    have hfr2 := (List.pairwise_cons.mp hfr).2
    have hfrhd := (List.pairwise_cons.mp hfr).1
    unfold generate_video_frame_loop
    cases hpts : fr.pts with
    | none => exact ih counter hfr2
    | some p =>
      simp only
      by_cases hstep : counter % step ≠ 0
      · rw [if_pos hstep]
        exact ih (counter + 1) hfr2
      · rw [if_neg hstep]
        by_cases hlt : py_round ((p : ℚ) * tb * rate) < (start : ℤ)
        · rw [if_pos hlt]
          exact ih counter hfr2
        · rw [if_neg hlt]
          rw [List.map_cons, List.pairwise_cons]
          refine ⟨?_, ih (counter + 1) hfr2⟩
          intro m hm
          rw [List.mem_map] at hm
          obtain ⟨yf, hyf, hm2⟩ := hm
          obtain ⟨-, g, hg, p2, hp2, hnum⟩ :=
            generate_video_frame_loop_mem tb rate step start rest
              (counter + 1) yf hyf
          rw [← hm2, hnum]
          apply py_round_mono
          have hplt : p < p2 := hfrhd g hg p p2 hpts hp2
          have hcast : (p : ℚ) ≤ (p2 : ℚ) := by exact_mod_cast le_of_lt hplt
          have h1 : (p : ℚ) * tb ≤ (p2 : ℚ) * tb :=
            mul_le_mul_of_nonneg_right hcast htb
          exact mul_le_mul_of_nonneg_right h1 hrate

end SlideSync

namespace SlideSync

/-- Claim C8 (amended): for a decoded stream with strictly increasing
presentation timestamps (and non-negative time base and frame rate),
every frame yielded by `generate_video_frame` has
`frame_number ≥ start_frame_number` and the sequence of yielded frame
numbers is non-decreasing.  (The no-duplicates part of the original
claim fails; see the counterexample.) -/
theorem generate_video_frame_monotone (frames : List DecodedFrame)
    (tb rate : ℚ) (step start : ℕ) (htb : 0 ≤ tb) (hrate : 0 ≤ rate)
    (hpts : frames.Pairwise
      (fun a b => ∀ pa pb, a.pts = some pa → b.pts = some pb → pa < pb)) :
    (∀ yf ∈ generate_video_frame frames tb rate step start,
      (start : ℤ) ≤ yf.frame_number) ∧
    ((generate_video_frame frames tb rate step start).map
      YieldedFrame.frame_number).Pairwise (· ≤ ·) := by
  unfold generate_video_frame
  exact ⟨fun yf hyf =>
    (generate_video_frame_loop_mem tb rate step start frames 0 yf hyf).1,
    generate_video_frame_loop_sorted tb rate htb hrate step start frames 0
      hpts⟩

/-- Claim C8 counterexample: the decoded stream with strictly increasing
presentation timestamps `0, 1` in a container with time base `1/1000`
and average rate `25` (stride 1, start 0) yields two frames that BOTH
carry frame number `0` — `round(0·(1/1000)·25) = round(1·(1/1000)·25) = 0`
— so the yielded frame numbers are not duplicate-free as the claim
states. -/
theorem generate_video_frame_duplicate_frame_numbers :
    (([⟨some 0⟩, ⟨some 1⟩] : List DecodedFrame).Pairwise
      (fun a b => ∀ pa pb, a.pts = some pa → b.pts = some pb → pa < pb)) ∧
    (generate_video_frame [⟨some 0⟩, ⟨some 1⟩] (1 / 1000) 25 1 0).map
        YieldedFrame.frame_number = [0, 0] ∧
    ¬ ((generate_video_frame [⟨some 0⟩, ⟨some 1⟩] (1 / 1000) 25 1 0).map
        YieldedFrame.frame_number).Nodup := by
  have h0 : py_round (((0 : ℤ) : ℚ) * (1 / 1000) * 25) = 0 := by
    unfold py_round
    norm_num
  have h1 : py_round (((1 : ℤ) : ℚ) * (1 / 1000) * 25) = 0 := by
    unfold py_round
    norm_num
  have hmap : (generate_video_frame [⟨some 0⟩, ⟨some 1⟩]
      (1 / 1000) 25 1 0).map YieldedFrame.frame_number = [0, 0] := by
    simp only [generate_video_frame, generate_video_frame_loop, h0, h1]
    norm_num
  refine ⟨?_, hmap, ?_⟩
  · rw [List.pairwise_cons]
    refine ⟨?_, by simp⟩
    intro b hb pa pb hpa hpb
    simp only [List.mem_singleton] at hb
    subst hb
    simp only [Option.some.injEq] at hpa hpb
    omega
  · rw [hmap]
    decide

/-- Claim C8 witness: the amended monotonicity statement at the stream
with timestamps `0, 50` in a `1/1000` time base at rate `25`, stride 1,
start 0. -/
theorem generate_video_frame_monotone_witness :
    ((0 : ℚ) ≤ 1 / 1000) ∧ ((0 : ℚ) ≤ 25) ∧
    (([⟨some 0⟩, ⟨some 50⟩] : List DecodedFrame).Pairwise
      (fun a b => ∀ pa pb, a.pts = some pa → b.pts = some pb → pa < pb)) ∧
    ((∀ yf ∈ generate_video_frame [⟨some 0⟩, ⟨some 50⟩] (1 / 1000) 25 1 0,
      ((0 : ℕ) : ℤ) ≤ yf.frame_number) ∧
    ((generate_video_frame [⟨some 0⟩, ⟨some 50⟩] (1 / 1000) 25 1 0).map
      YieldedFrame.frame_number).Pairwise (· ≤ ·)) := by
  have hp : ([⟨some 0⟩, ⟨some 50⟩] : List DecodedFrame).Pairwise
      (fun a b => ∀ pa pb, a.pts = some pa → b.pts = some pb → pa < pb) := by
    rw [List.pairwise_cons]
    refine ⟨?_, by simp⟩
    intro b hb pa pb hpa hpb
    simp only [List.mem_singleton] at hb
    subst hb
    simp only [Option.some.injEq] at hpa hpb
    omega
  exact ⟨by norm_num, by norm_num, hp,
    generate_video_frame_monotone [⟨some 0⟩, ⟨some 50⟩] (1 / 1000) 25 1 0
      (by norm_num) (by norm_num) hp⟩

end SlideSync
